import Mathlib

/-!
Verification of the boot configuration resolution subsystem of
`system/core` (`init/util.cpp`): kernel command-line tokenization,
property-reference template expansion (`expand_props`), ACPI-driven
device-tree synthesis, and the Android DT directory resolver.

Strings are modelled as `List Char`.  File-system state and the property
store are passed explicitly: `is_dir` and `readFile` abstract `stat` and
`android::base::ReadFileToString` (which swallows errors, leaving the
content empty), and `get` abstracts `android::base::GetProperty(name, "")`
(empty string means unset).
-/

set_option autoImplicit false

namespace AndroidInit

/-- C locale `isspace`, as used by `android::base::Trim`. -/
def isSpaceChar (c : Char) : Bool :=
  c = ' ' || c = '\t' || c = '\n' || c = '\x0b' || c = '\x0c' || c = '\r'

/-- Embeds `android::base::Trim`: strip leading and trailing whitespace. -/
def trim (s : List Char) : List Char :=
  ((s.dropWhile isSpaceChar).reverse.dropWhile isSpaceChar).reverse

/-- Embeds `android::base::Split` with a single delimiter character: the
result always has `count of delimiters + 1` pieces; `Split("") = [""]`. -/
def splitOn (d : Char) : List Char → List (List Char)
  | [] => [[]]
  | c :: rest =>
    if c = d then [] :: splitOn d rest
    else
      match splitOn d rest with
      | [] => [[c]]
      | t :: ts => (c :: t) :: ts

/-- Embeds `strchr`-based splitting at the first occurrence of `d`:
`some (before, after)` with the delimiter removed, `none` if absent. -/
def breakAt (d : Char) : List Char → Option (List Char × List Char)
  | [] => none
  | c :: rest =>
    if c = d then some ([], rest)
    else
      match breakAt d rest with
      | none => none
      | some p => some (c :: p.1, p.2)

/-- Embeds `std::string::find(":-")` on a brace body: splits at the first
occurrence of the two-character sequence, `none` if absent. -/
def findColonDash : List Char → Option (List Char × List Char)
  | [] => none
  | c :: rest =>
    if c = ':' ∧ rest.head? = some '-' then some ([], rest.tail)
    else
      match findColonDash rest with
      | none => none
      | some p => some (c :: p.1, p.2)

/-- Embeds `std::string::find(pat) != npos`: substring containment. -/
def containsSub (pat : List Char) : List Char → Bool
  | [] => pat.isPrefixOf []
  | c :: rest => pat.isPrefixOf (c :: rest) || containsSub pat rest

/-- The body of the token loop shared by `import_kernel_cmdline` and
`import_acpi_cmdline`: a token is accepted only when `Split(entry, "=")`
yields exactly two pieces. -/
def pieceToPair (pieces : List (List Char)) : Option (List Char × List Char) :=
  match pieces with
  | [k, v] => some (k, v)
  | _ => none

/-- Embeds the tokenization loop of `import_kernel_cmdline` (util.cpp
lines 244-250): trim, split on spaces, split each token on `=`, keep the
tokens with exactly two pieces, in document order.  The returned list is
the exact sequence of callback invocations. -/
def tokenizePairs (cmdline : List Char) : List (List Char × List Char) :=
  (splitOn ' ' (trim cmdline)).filterMap (fun entry => pieceToPair (splitOn '=' entry))

/-! ### The property expander (`expand_props`, util.cpp lines 295-371) -/

/-- Embeds the `while (*src_ptr)` loop of `expand_props`.  `fuel` is an
upper bound on the number of loop iterations (each iteration consumes at
least one source character, so `src.length` suffices; see
`expandGoF_fuel_congr`).  Returns the success flag together with the final
contents of `*dst` (the destination accumulates across iterations and is
returned as-is on failure). -/
def expandGoF (get : List Char → List Char) : Nat → List Char → List Char → Bool × List Char
  | _, [], dst => (true, dst)
  | 0, _ :: _, dst => (false, dst)
  | fuel + 1, c :: rest, dst =>
    if c = '$' then
      match rest with
      | [] => (true, dst)
      | c2 :: r2 =>
        if c2 = '$' then expandGoF get fuel r2 (dst ++ ['$'])
        else if c2 = '{' then
          match breakAt '}' r2 with
          | none => (false, dst)
          | some (inner, afterBrace) =>
            let nd :=
              match findColonDash inner with
              | none => (inner, ([] : List Char))
              | some p => p
            if nd.1 = [] then (false, dst)
            else
              let v0 := get nd.1
              let v := if v0 = [] then nd.2 else v0
              if v = [] then (false, dst)
              else expandGoF get fuel afterBrace (dst ++ v)
        else
          let v := get (c2 :: r2)
          if v = [] then (false, dst) else (true, dst ++ v)
    else expandGoF get fuel rest (dst ++ [c])

/-- Embeds `expand_props(src, dst)` with `*dst` initially empty: returns
the C++ return value together with the final contents of `*dst`. -/
def expandProps (get : List Char → List Char) (src : List Char) : Bool × List Char :=
  expandGoF get src.length src []

/-! ### Device-tree synthesis and directory resolution -/

def kDefaultAndroidDtDir : List Char := "/proc/device-tree/firmware/android/".data

def kSecondaryAndroidDtDir : List Char := "/dev/device-tree/firmware/android/".data

def kAcpiDefaultCfgRoot : List Char :=
  "/sys/devices/system/container/ACPI0004:00/firmware_node".data

/-- Replace every `.` by `/`, as `std::replace(begin, end, '.', '/')` does
over the whole constructed path in `create_dt_file_by_cmdline`. -/
def replaceDots (l : List Char) : List Char :=
  l.map (fun c => if c = '.' then '/' else c)

/-- Embeds POSIX `dirname` as wrapped by `android::base::Dirname`. -/
def dirname (p : List Char) : List Char :=
  let r1 := p.reverse.dropWhile (fun c => c = '/')
  if r1 = [] then (if p = [] then ['.'] else ['/'])
  else
    let r2 := r1.dropWhile (fun c => c ≠ '/')
    let r3 := r2.dropWhile (fun c => c = '/')
    if r3 = [] then (if r2 = [] then ['.'] else ['/']) else r3.reverse

/-- The file-system effect of one `create_dt_file_by_cmdline` call: the
directory passed to `mkdir_recursive`, the path passed to `WriteFile`,
and the written content. -/
structure DtFileWrite where
  mkdirPath : List Char
  filePath : List Char
  content : List Char
deriving DecidableEq

/-- Embeds `create_dt_file_by_cmdline` (util.cpp lines 379-394): keys not
prefixed with `android.fw.` (and the empty key) produce no write;
otherwise the path is `rootdir ++ "/" ++ key.substr(11)` with every `.` of
the WHOLE path replaced by `/`, and the content is the value plus a
newline. -/
def create_dt_file_by_cmdline (key value rootdir : List Char) : Option DtFileWrite :=
  if key = [] then none
  else if "android.fw.".data.isPrefixOf key then
    let file_path := replaceDots (rootdir ++ '/' :: key.drop 11)
    some ⟨dirname file_path, file_path, value ++ ['\n']⟩
  else none

/-- Embeds `get_acpi_cfg_path_from_cmdline` (util.cpp lines 395-407): the
FIRST `android.acpi.cfg.root=` pair wins (the loop returns on the first
match), with a fixed default when the key is absent. -/
def get_acpi_cfg_path_from_cmdline (cmdline : List Char) : List Char :=
  match (tokenizePairs cmdline).find? (fun p => p.1 == "android.acpi.cfg.root".data) with
  | some p => p.2
  | none => kAcpiDefaultCfgRoot

/-- Embeds `import_acpi_cmdline` (util.cpp lines 408-427) given the
contents of the node's `path` and `description` attributes: returns the
C++ return value together with the exact sequence of `(key, value)`
callback invocations. -/
def import_acpi_cmdline (pathContent descContent : List Char) :
    Bool × List (List Char × List Char) :=
  if containsSub "CFG0".data pathContent then
    (true, tokenizePairs (descContent.map (fun c => if c = '\n' then ' ' else c)))
  else (false, [])

/-- Ambient boot-time state read by `init_android_dt_dir`: `stat`-based
directory tests, the `/proc/cmdline` contents, and file reads (returning
the empty string where `ReadFileToString` fails). -/
structure BootEnv where
  is_dir : List Char → Bool
  cmdline : List Char
  readFile : List Char → List Char

/-- The observable outcome of `init_android_dt_dir`: the returned path,
whether `import_acpi_cmdline` was invoked, its return value, and the
file-system writes of each synthesis callback invocation. -/
structure DtDirResult where
  dir : List Char
  acpiAttempted : Bool
  acpiOk : Bool
  writes : List (Option DtFileWrite)
deriving DecidableEq

/-- The cmdline scan of `init_android_dt_dir` (util.cpp lines 436-441):
the callback overwrites `android_dt_dir` on every `androidboot.android_dt_dir`
pair, so the LAST occurrence wins; the fold starts from the canonical
default. -/
def dtDirOverride (cmdline : List Char) : List Char :=
  (tokenizePairs cmdline).foldl
    (fun acc p => if p.1 == "androidboot.android_dt_dir".data then p.2 else acc)
    kDefaultAndroidDtDir

/-- Embeds `init_android_dt_dir` (util.cpp lines 431-451). -/
def init_android_dt_dir (env : BootEnv) : DtDirResult :=
  if env.is_dir kDefaultAndroidDtDir then ⟨kDefaultAndroidDtDir, false, false, []⟩
  else
    let dt1 := dtDirOverride env.cmdline
    let dt2 := if dt1 = kDefaultAndroidDtDir then kSecondaryAndroidDtDir else dt1
    if env.is_dir dt2 then ⟨dt2, false, false, []⟩
    else
      let root := get_acpi_cfg_path_from_cmdline env.cmdline
      let res := import_acpi_cmdline (env.readFile (root ++ "/path".data))
          (env.readFile (root ++ "/description".data))
      ⟨dt2, true, res.1, res.2.map (fun p => create_dt_file_by_cmdline p.1 p.2 dt2)⟩

/-- Spec-side description of the override scan: the last occurrence of the
override key on the command line, if any. -/
def lastDtDirOverride (cmdline : List Char) : Option (List Char) :=
  ((tokenizePairs cmdline).reverse.find?
      (fun p => p.1 == "androidboot.android_dt_dir".data)).map (fun p => p.2)

/-- Spec-side description of the candidate path chosen when the canonical
directory is absent: the last override value, except that a value equal to
the canonical path is indistinguishable from no override and yields the
secondary default. -/
def specCandidate (cmdline : List Char) : List Char :=
  match lastDtDirOverride cmdline with
  | some v => if v = kDefaultAndroidDtDir then kSecondaryAndroidDtDir else v
  | none => kSecondaryAndroidDtDir

/-- A concrete property store used in demonstrations: `name` holds `X`,
everything else is unset. -/
def storeNameX (n : List Char) : List Char :=
  if n == "name".data then "X".data else []

/-- A concrete property store used in demonstrations: `ok` holds `V`,
everything else (`bad` in particular) is unset. -/
def storeOkV (n : List Char) : List Char :=
  if n == "ok".data then "V".data else []

/-! ### Lemmas about the tokenizer -/

theorem splitOn_ne_nil (d : Char) (l : List Char) : splitOn d l ≠ [] := by
  cases l with
  | nil => simp [splitOn]
  | cons c rest =>
    simp only [splitOn]
    by_cases h : c = d
    · simp [h]
    · rw [if_neg h]
      cases hr : splitOn d rest with
      | nil => simp
      | cons t ts => simp

theorem splitOn_of_not_mem {d : Char} {l : List Char} (h : d ∉ l) : splitOn d l = [l] := by
  induction l with
  | nil => rfl
  | cons c rest ih =>
    rw [List.mem_cons, not_or] at h
    have hc : ¬ c = d := fun hcd => h.1 hcd.symm
    simp only [splitOn, if_neg hc, ih h.2]

theorem splitOn_eq_singleton {d : Char} {l p : List Char} (h : splitOn d l = [p]) :
    l = p ∧ d ∉ l := by
  induction l generalizing p with
  | nil =>
    simp only [splitOn] at h
    rw [List.cons.injEq] at h
    exact ⟨h.1, by simp⟩
  | cons c rest ih =>
    by_cases hc : c = d
    · exfalso
      simp only [splitOn, if_pos hc] at h
      rw [List.cons.injEq] at h
      exact splitOn_ne_nil d rest h.2
    · simp only [splitOn, if_neg hc] at h
      cases hr : splitOn d rest with
      | nil => exact absurd hr (splitOn_ne_nil d rest)
      | cons t ts =>
        rw [hr] at h
        rw [List.cons.injEq] at h
        obtain ⟨hp, hts⟩ := h
        subst hts
        obtain ⟨h1, h2⟩ := ih hr
        subst h1
        refine ⟨hp, ?_⟩
        rw [List.mem_cons, not_or]
        exact ⟨fun hdc => hc hdc.symm, h2⟩

theorem splitOn_eq_pair_iff {d : Char} {l k v : List Char} :
    splitOn d l = [k, v] ↔ l = k ++ d :: v ∧ d ∉ k ∧ d ∉ v := by
  constructor
  · intro h
    induction l generalizing k with
    | nil => simp [splitOn] at h
    | cons c rest ih =>
      by_cases hc : c = d
      · simp only [splitOn, if_pos hc] at h
        rw [List.cons.injEq] at h
        obtain ⟨hk, hrest⟩ := h
        obtain ⟨h1, h2⟩ := splitOn_eq_singleton hrest
        subst hk
        subst h1
        subst hc
        exact ⟨rfl, by simp, h2⟩
      · simp only [splitOn, if_neg hc] at h
        cases hr : splitOn d rest with
        | nil => exact absurd hr (splitOn_ne_nil d rest)
        | cons t ts =>
          rw [hr] at h
          rw [List.cons.injEq] at h
          obtain ⟨hk, hts⟩ := h
          subst hk
          rw [hts] at hr
          obtain ⟨h1, h2, h3⟩ := ih hr
          subst h1
          refine ⟨by simp, ?_, h3⟩
          rw [List.mem_cons, not_or]
          exact ⟨fun hdc => hc hdc.symm, h2⟩
  · rintro ⟨rfl, hk, hv⟩
    induction k with
    | nil => simp [splitOn, splitOn_of_not_mem hv]
    | cons c k' ih =>
      rw [List.mem_cons, not_or] at hk
      have hc : ¬ c = d := fun hcd => hk.1 hcd.symm
      simp only [List.cons_append, splitOn, if_neg hc, List.append_eq]
      rw [ih hk.2]

theorem pieceToPair_eq_some_iff {ps : List (List Char)} {k v : List Char} :
    pieceToPair ps = some (k, v) ↔ ps = [k, v] := by
  cases ps with
  | nil => simp [pieceToPair]
  | cons a t =>
    cases t with
    | nil => simp [pieceToPair]
    | cons b u =>
      cases u with
      | nil => simp [pieceToPair]
      | cons x y => simp [pieceToPair]

/-- Token acceptance characterized structurally: a token is accepted with
pair `(k, v)` precisely when it is `k=v` with a single `=`. -/
theorem token_accepted_iff {e k v : List Char} :
    pieceToPair (splitOn '=' e) = some (k, v) ↔
      e = k ++ '=' :: v ∧ '=' ∉ k ∧ '=' ∉ v := by
  rw [pieceToPair_eq_some_iff, splitOn_eq_pair_iff]

/-! ### Lemmas about the cmdline override fold -/

theorem foldl_override_eq_find (key i : List Char) (l : List (List Char × List Char)) :
    l.foldl (fun acc p => if p.1 == key then p.2 else acc) i
      = match l.reverse.find? (fun p => p.1 == key) with
        | some p => p.2
        | none => i := by
  induction l generalizing i with
  | nil => rfl
  | cons p l' ih =>
    simp only [List.foldl_cons, List.reverse_cons, List.find?_append]
    rw [ih]
    cases hf : l'.reverse.find? (fun p => p.1 == key) with
    | some q => simp [Option.or]
    | none =>
      by_cases hk : (p.1 == key) = true
      · simp [Option.or, List.find?, hk]
      · simp [Option.or, List.find?, hk]

/-! ### Lemmas about brace scanning and default splitting -/

theorem breakAt_some_length {d : Char} {l a b : List Char} (h : breakAt d l = some (a, b)) :
    b.length < l.length := by
  induction l generalizing a b with
  | nil => simp [breakAt] at h
  | cons c rest ih =>
    by_cases hc : c = d
    · simp only [breakAt, if_pos hc, Option.some.injEq, Prod.mk.injEq] at h
      rw [← h.2]
      simp
    · simp only [breakAt, if_neg hc] at h
      cases hr : breakAt d rest with
      | none => rw [hr] at h; simp at h
      | some p =>
        rw [hr] at h
        simp only [Option.some.injEq, Prod.mk.injEq] at h
        have := ih (show breakAt d rest = some (p.1, p.2) by rw [hr])
        rw [← h.2]
        simp only [List.length_cons]
        omega

theorem breakAt_append {d : Char} {a : List Char} (b : List Char) (h : d ∉ a) :
    breakAt d (a ++ d :: b) = some (a, b) := by
  induction a with
  | nil => simp [breakAt]
  | cons c a' ih =>
    rw [List.mem_cons, not_or] at h
    have hc : ¬ c = d := fun hcd => h.1 hcd.symm
    simp only [List.cons_append, breakAt, if_neg hc, List.append_eq]
    rw [ih h.2]

theorem findColonDash_append {n : List Char} (d : List Char) (h : findColonDash n = none) :
    findColonDash (n ++ ':' :: '-' :: d) = some (n, d) := by
  induction n with
  | nil => simp [findColonDash]
  | cons c n' ih =>
    simp only [findColonDash] at h
    by_cases hc : c = ':' ∧ n'.head? = some '-'
    · rw [if_pos hc] at h
      exact absurd h (by simp)
    · rw [if_neg hc] at h
      have h' : findColonDash n' = none := by
        cases hfc : findColonDash n' with
        | none => rfl
        | some p => rw [hfc] at h; simp at h
      have hcond : ¬ (c = ':' ∧ (n' ++ ':' :: '-' :: d).head? = some '-') := by
        cases n' with
        | nil =>
          rintro ⟨-, hh⟩
          simp at hh
        | cons x t =>
          rintro ⟨h1, h2⟩
          simp only [List.cons_append, List.head?_cons, Option.some.injEq] at h2
          exact hc ⟨h1, by simp [h2]⟩
      simp only [List.cons_append, findColonDash, List.append_eq, if_neg hcond]
      rw [ih h']

/-! ### Lemmas about path construction -/

theorem isPrefixOf_append_self (a b : List Char) : a.isPrefixOf (a ++ b) = true := by
  induction a with
  | nil => simp [List.isPrefixOf]
  | cons c a' ih => simp [List.isPrefixOf, ih]

theorem replaceDots_append (a b : List Char) :
    replaceDots (a ++ b) = replaceDots a ++ replaceDots b := by
  simp [replaceDots]

theorem replaceDots_of_no_dot {a : List Char} (h : ∀ c ∈ a, c ≠ '.') :
    replaceDots a = a := by
  induction a with
  | nil => rfl
  | cons c a' ih =>
    have hc : ¬ c = '.' := h c (List.mem_cons_self c a')
    have ha' := ih (fun x hx => h x (List.mem_cons_of_mem c hx))
    simp only [replaceDots, List.map_cons, if_neg hc] at ha' ⊢
    rw [ha']

/-! ### Lemmas about the expander loop -/

theorem expandGoF_fuel_congr (get : List Char → List Char) :
    ∀ f1 f2 src dst, src.length ≤ f1 → src.length ≤ f2 →
      expandGoF get f1 src dst = expandGoF get f2 src dst := by
  intro f1
  induction f1 with
  | zero =>
    intro f2 src dst h1 h2
    have hsrc : src = [] := List.eq_nil_of_length_eq_zero (Nat.le_zero.mp h1)
    subst hsrc
    cases f2 <;> rfl
  | succ k ih =>
    intro f2 src dst h1 h2
    cases src with
    | nil => cases f2 <;> rfl
    | cons c rest =>
      cases f2 with
      | zero => simp at h2
      | succ m =>
        simp only [List.length_cons] at h1 h2
        simp only [expandGoF]
        by_cases hc : c = '$'
        · rw [if_pos hc, if_pos hc]
          cases rest with
          | nil => rfl
          | cons c2 r2 =>
            dsimp only
            simp only [List.length_cons] at h1 h2
            by_cases h2c : c2 = '$'
            · rw [if_pos h2c, if_pos h2c]
              exact ih m r2 (dst ++ ['$']) (by omega) (by omega)
            · rw [if_neg h2c, if_neg h2c]
              by_cases hbr : c2 = '{'
              · rw [if_pos hbr, if_pos hbr]
                cases hb : breakAt '}' r2 with
                | none => rfl
                | some p =>
                  obtain ⟨inner, afterBrace⟩ := p
                  have hlen := breakAt_some_length hb
                  simp only
                  by_cases hnd : (match findColonDash inner with
                      | none => (inner, ([] : List Char))
                      | some p => p).1 = []
                  · rw [if_pos hnd, if_pos hnd]
                  · rw [if_neg hnd, if_neg hnd]
                    by_cases hv : (if get (match findColonDash inner with
                          | none => (inner, ([] : List Char))
                          | some p => p).1 = []
                        then (match findColonDash inner with
                          | none => (inner, ([] : List Char))
                          | some p => p).2
                        else get (match findColonDash inner with
                          | none => (inner, ([] : List Char))
                          | some p => p).1) = []
                    · rw [if_pos hv, if_pos hv]
                    · rw [if_neg hv, if_neg hv]
                      exact ih m afterBrace _ (by omega) (by omega)
              · rw [if_neg hbr, if_neg hbr]
        · rw [if_neg hc, if_neg hc]
          exact ih m rest (dst ++ [c]) (by omega) (by omega)

theorem expandGoF_dst (get : List Char → List Char) :
    ∀ fuel src dst, expandGoF get fuel src dst
      = ((expandGoF get fuel src []).1, dst ++ (expandGoF get fuel src []).2) := by
  intro fuel
  induction fuel with
  | zero => intro src dst; cases src <;> simp [expandGoF]
  | succ k ih =>
    intro src dst
    cases src with
    | nil => simp [expandGoF]
    | cons c rest =>
      simp only [expandGoF]
      by_cases hc : c = '$'
      · rw [if_pos hc, if_pos hc]
        cases rest with
        | nil => simp
        | cons c2 r2 =>
          dsimp only
          by_cases h2c : c2 = '$'
          · rw [if_pos h2c, if_pos h2c]
            rw [ih r2 (dst ++ ['$']), ih r2 ([] ++ ['$'])]
            simp [List.append_assoc]
          · rw [if_neg h2c, if_neg h2c]
            by_cases hbr : c2 = '{'
            · rw [if_pos hbr, if_pos hbr]
              cases hb : breakAt '}' r2 with
              | none => simp
              | some p =>
                obtain ⟨inner, afterBrace⟩ := p
                simp only
                by_cases hnd : (match findColonDash inner with
                    | none => (inner, ([] : List Char))
                    | some p => p).1 = []
                · rw [if_pos hnd, if_pos hnd]
                  simp
                · rw [if_neg hnd, if_neg hnd]
                  by_cases hv : (if get (match findColonDash inner with
                        | none => (inner, ([] : List Char))
                        | some p => p).1 = []
                      then (match findColonDash inner with
                        | none => (inner, ([] : List Char))
                        | some p => p).2
                      else get (match findColonDash inner with
                        | none => (inner, ([] : List Char))
                        | some p => p).1) = []
                  · rw [if_pos hv, if_pos hv]
                    simp
                  · rw [if_neg hv, if_neg hv]
                    rw [ih afterBrace (dst ++ _), ih afterBrace ([] ++ _)]
                    simp [List.append_assoc]
            · rw [if_neg hbr, if_neg hbr]
              by_cases hg : get (c2 :: r2) = []
              · rw [if_pos hg, if_pos hg]
                simp
              · rw [if_neg hg, if_neg hg]
                simp
      · rw [if_neg hc, if_neg hc]
        rw [ih rest (dst ++ [c]), ih rest ([] ++ [c])]
        simp [List.append_assoc]

theorem expandGoF_copy (get : List Char → List Char) :
    ∀ pre s dst fuel, (∀ c ∈ pre, c ≠ '$') →
      expandGoF get (pre.length + fuel) (pre ++ s) dst = expandGoF get fuel s (dst ++ pre) := by
  intro pre
  induction pre with
  | nil =>
    intro s dst fuel _
    simp
  | cons c p' ih =>
    intro s dst fuel hpre
    have hc : ¬ c = '$' := hpre c (List.mem_cons_self c p')
    have hlen : (c :: p').length + fuel = (p'.length + fuel) + 1 := by
      simp only [List.length_cons]
      omega
    rw [hlen]
    simp only [List.cons_append, expandGoF, if_neg hc, List.append_eq]
    rw [ih s (dst ++ [c]) fuel (fun x hx => hpre x (List.mem_cons_of_mem c hx))]
    simp [List.append_assoc]

/-- Expansion of a template with a reference-free prefix: the prefix is
copied verbatim and expansion continues on the rest. -/
theorem expandProps_append (get : List Char → List Char) (pre s : List Char)
    (hpre : ∀ c ∈ pre, c ≠ '$') :
    expandProps get (pre ++ s) = expandGoF get s.length s pre := by
  unfold expandProps
  rw [List.length_append]
  rw [expandGoF_copy get pre s [] s.length hpre]
  simp

/-- One expansion step on a braced reference with a `:-` default. -/
theorem expandGoF_braced_default (get : List Char → List Char)
    (n d post dst : List Char) (F : Nat)
    (hn : n ≠ []) (hnb : '}' ∉ n) (hnc : findColonDash n = none) (hdb : '}' ∉ d)
    (hF : post.length < F) :
    expandGoF get F ('$' :: '{' :: (n ++ ':' :: '-' :: (d ++ '}' :: post))) dst
      = (if (if get n = [] then d else get n) = [] then (false, dst)
         else expandGoF get post.length post
           (dst ++ (if get n = [] then d else get n))) := by
  obtain ⟨k, rfl⟩ : ∃ k, F = k + 1 := ⟨F - 1, by omega⟩
  have hr : n ++ ':' :: '-' :: (d ++ '}' :: post) = (n ++ ':' :: '-' :: d) ++ '}' :: post := by
    simp [List.append_assoc]
  have hmem : '}' ∉ n ++ ':' :: '-' :: d := by
    simp only [List.mem_append, List.mem_cons]
    push_neg
    exact ⟨hnb, by decide, by decide, hdb⟩
  simp only [expandGoF, if_pos rfl, if_true, ite_true]
  rw [if_neg (show ¬ ('{' : Char) = '$' by decide)]
  rw [hr, breakAt_append _ hmem]
  dsimp only
  rw [findColonDash_append d hnc]
  dsimp only
  rw [if_neg hn]
  by_cases hv : (if get n = [] then d else get n) = []
  · rw [if_pos hv, if_pos hv]
  · rw [if_neg hv, if_neg hv]
    exact expandGoF_fuel_congr get k post.length post _ (by omega) (by omega)

/-- One expansion step on a braced reference without a default. -/
theorem expandGoF_braced_plain (get : List Char → List Char)
    (n post dst : List Char) (F : Nat)
    (hn : n ≠ []) (hnb : '}' ∉ n) (hnc : findColonDash n = none)
    (hF : post.length < F) :
    expandGoF get F ('$' :: '{' :: (n ++ '}' :: post)) dst
      = (if get n = [] then (false, dst)
         else expandGoF get post.length post (dst ++ get n)) := by
  obtain ⟨k, rfl⟩ : ∃ k, F = k + 1 := ⟨F - 1, by omega⟩
  simp only [expandGoF, if_pos rfl, if_true, ite_true]
  rw [if_neg (show ¬ ('{' : Char) = '$' by decide)]
  rw [breakAt_append _ hnb]
  dsimp only
  rw [hnc]
  dsimp only
  rw [if_neg hn]
  by_cases hg : get n = []
  · simp [hg]
  · simp only [if_neg hg]
    exact expandGoF_fuel_congr get k post.length post _ (by omega) (by omega)

/-- One expansion step on the deprecated bare `$name` form: everything
after the `$` becomes the property name and the loop terminates. -/
theorem expandGoF_bare (get : List Char → List Char) (c2 : Char) (r2 dst : List Char)
    (F : Nat) (h1 : c2 ≠ '$') (h2 : c2 ≠ '{') (hF : 0 < F) :
    expandGoF get F ('$' :: c2 :: r2) dst
      = (if get (c2 :: r2) = [] then (false, dst)
         else (true, dst ++ get (c2 :: r2))) := by
  obtain ⟨k, rfl⟩ : ∃ k, F = k + 1 := ⟨F - 1, by omega⟩
  simp only [expandGoF, if_pos rfl, if_true, ite_true]
  rw [if_neg h1, if_neg h2]

/-! ### Resolver helper lemmas -/

theorem dt2_eq_specCandidate (cmdline : List Char) :
    (if dtDirOverride cmdline = kDefaultAndroidDtDir then kSecondaryAndroidDtDir
     else dtDirOverride cmdline) = specCandidate cmdline := by
  unfold dtDirOverride specCandidate lastDtDirOverride
  rw [foldl_override_eq_find]
  cases hf : (tokenizePairs cmdline).reverse.find?
      (fun p => p.1 == "androidboot.android_dt_dir".data) with
  | none => simp
  | some q =>
    by_cases hq : q.2 = kDefaultAndroidDtDir
    · simp [hq]
    · simp [hq]

theorem init_android_dt_dir_not_canonical (env : BootEnv)
    (h : env.is_dir kDefaultAndroidDtDir = false) :
    init_android_dt_dir env
      = (if env.is_dir (specCandidate env.cmdline) then
           (⟨specCandidate env.cmdline, false, false, []⟩ : DtDirResult)
         else
           ⟨specCandidate env.cmdline, true,
            (import_acpi_cmdline
              (env.readFile (get_acpi_cfg_path_from_cmdline env.cmdline ++ "/path".data))
              (env.readFile
                (get_acpi_cfg_path_from_cmdline env.cmdline ++ "/description".data))).1,
            (import_acpi_cmdline
              (env.readFile (get_acpi_cfg_path_from_cmdline env.cmdline ++ "/path".data))
              (env.readFile
                (get_acpi_cfg_path_from_cmdline env.cmdline ++ "/description".data))).2.map
              (fun p => create_dt_file_by_cmdline p.1 p.2 (specCandidate env.cmdline))⟩) := by
  unfold init_android_dt_dir
  rw [h]
  simp only [Bool.false_eq_true, if_false]
  rw [dt2_eq_specCandidate env.cmdline]

/-! ### Claim theorems -/

/-- C1 (counterexample): the reference with an explicitly empty default,
expanded against a store where the property is unset, FAILS instead of
substituting the empty default: the template is a dollar, an opening
brace, `x:-`, and a closing brace, and `expand_props` returns failure
rather than success with the empty substitution. -/
theorem expand_props_empty_default_cex :
    expandProps (fun _ => []) "$\x7bx:-\x7d".data = (false, [])
    ∧ expandProps (fun _ => []) "$\x7bx:-\x7d".data ≠ (true, []) := by decide

/-- C1 (amended): in a braced reference with a `:-` default, when the
looked-up value is non-empty it is substituted verbatim; when it is empty
the default is substituted verbatim only if the default is itself
non-empty; an empty default is indistinguishable from an absent default
and expansion fails, exactly as for a braced reference with no default at
all. -/
theorem expand_props_default_resolution (get : List Char → List Char)
    (pre n d post : List Char)
    (hpre : ∀ c ∈ pre, c ≠ '$') (hn : n ≠ []) (hnb : '}' ∉ n)
    (hnc : findColonDash n = none) (hdb : '}' ∉ d) :
    (expandProps get (pre ++ '$' :: '{' :: (n ++ ':' :: '-' :: (d ++ '}' :: post)))
       = if (if get n = [] then d else get n) = [] then (false, pre)
         else ((expandProps get post).1,
               pre ++ (if get n = [] then d else get n) ++ (expandProps get post).2))
    ∧ (expandProps get (pre ++ '$' :: '{' :: (n ++ '}' :: post))
       = if get n = [] then (false, pre)
         else ((expandProps get post).1, pre ++ get n ++ (expandProps get post).2)) := by
  constructor
  · rw [expandProps_append get pre _ hpre]
    rw [expandGoF_braced_default get n d post pre _ hn hnb hnc hdb
      (by simp [List.length_append]; omega)]
    by_cases hv : (if get n = [] then d else get n) = []
    · rw [if_pos hv, if_pos hv]
    · rw [if_neg hv, if_neg hv]
      rw [expandGoF_dst get post.length post]
      unfold expandProps
      simp [List.append_assoc]
  · rw [expandProps_append get pre _ hpre]
    rw [expandGoF_braced_plain get n post pre _ hn hnb hnc
      (by simp [List.length_append]; omega)]
    by_cases hg : get n = []
    · rw [if_pos hg, if_pos hg]
    · rw [if_neg hg, if_neg hg]
      rw [expandGoF_dst get post.length post]
      unfold expandProps
      simp [List.append_assoc]

/-- C1 (witness): the amended theorem applied at the concrete failing
template with `x` unset and an empty default. -/
theorem expand_props_default_resolution_witness :
    expandProps (fun _ => [])
        ("A".data ++ '$' :: '{' :: ("x".data ++ ':' :: '-' :: ([] ++ '}' :: [])))
      = (false, "A".data) := by
  have h := expand_props_default_resolution (fun _ => []) "A".data "x".data [] []
    (by decide) (by decide) (by decide) (by decide) (by decide)
  rw [h.1]
  decide

/-- C4: a cmdline token is accepted by the tokenizer, contributing the
pair `(k, v)`, exactly when it consists of `k`, one `=`, and `v`, with no
further `=` anywhere — tokens with zero or several `=` are dropped; and
the concrete boot line from the claim yields exactly the two pairs, in
document order. -/
theorem kernel_cmdline_tokenization :
    (∀ e k v : List Char, pieceToPair (splitOn '=' e) = some (k, v) ↔
        e = k ++ '=' :: v ∧ '=' ∉ k ∧ '=' ∉ v)
    ∧ tokenizePairs "a=1 b=2=3 c=4".data
        = [("a".data, "1".data), ("c".data, "4".data)] :=
  ⟨fun _ _ _ => token_accepted_iff, by decide⟩

/-- C4 (witness): the acceptance characterization applied to `a=1`. -/
theorem kernel_cmdline_tokenization_witness :
    pieceToPair (splitOn '=' "a=1".data) = some ("a".data, "1".data) :=
  (kernel_cmdline_tokenization.1 "a=1".data "a".data "1".data).mpr (by decide)

/-- C8: for a bare `$` reference (next character neither `$` nor `{` nor
end of input), everything remaining becomes the property name, so the
expansion either fails (name unset) or terminates with the whole looked-up
value appended — no literal text can follow; concretely, `$name!tail`
looks up the property `name!tail` and fails, while the braced form
followed by the same text succeeds with the trailing text intact. -/
theorem expand_props_bare_form (get : List Char → List Char)
    (pre : List Char) (c2 : Char) (r2 : List Char)
    (hpre : ∀ c ∈ pre, c ≠ '$') (h1 : c2 ≠ '$') (h2 : c2 ≠ '{') :
    (expandProps get (pre ++ '$' :: c2 :: r2)
       = if get (c2 :: r2) = [] then (false, pre)
         else (true, pre ++ get (c2 :: r2)))
    ∧ expandProps storeNameX "$name!tail".data = (false, [])
    ∧ expandProps storeNameX "$\x7bname\x7d!tail".data = (true, "X!tail".data) := by
  refine ⟨?_, by decide, by decide⟩
  rw [expandProps_append get pre _ hpre]
  rw [expandGoF_bare get c2 r2 pre _ h1 h2 (by simp)]

/-- C8 (witness): the bare-form theorem applied at `$name!tail`. -/
theorem expand_props_bare_form_witness :
    expandProps storeNameX ([] ++ '$' :: 'n' :: "ame!tail".data) = (false, []) := by
  have h := expand_props_bare_form storeNameX [] 'n' "ame!tail".data
    (by decide) (by decide) (by decide)
  rw [h.1]
  decide

/-- C9: when expansion fails on the remainder of a template, the
destination already holds the expansion of the consumed prefix (a
reference-free prefix is copied verbatim before the failing part), so the
output is not left empty or unchanged on error; concretely, a template
with literal text, a `$$` escape and a successful reference before an
unresolvable reference fails with the partially-expanded prefix in the
destination. -/
theorem expand_props_partial_output (get : List Char → List Char) (pre t : List Char)
    (hpre : ∀ c ∈ pre, c ≠ '$') (hfail : (expandProps get t).1 = false) :
    (expandProps get (pre ++ t) = (false, pre ++ (expandProps get t).2))
    ∧ expandProps storeOkV "a$$b$\x7bok\x7dc$\x7bbad\x7d".data = (false, "a$bVc".data)
    ∧ "a$bVc".data ≠ []
    ∧ "a$bVc".data ≠ "a$$b$\x7bok\x7dc$\x7bbad\x7d".data := by
  refine ⟨?_, by decide, by decide, by decide⟩
  rw [expandProps_append get pre t hpre]
  rw [expandGoF_dst get t.length t]
  unfold expandProps at hfail ⊢
  rw [hfail]

/-- C9 (witness): the partial-output theorem applied to prefix `A` and the
failing template consisting of a dollar, an opening brace and `u`. -/
theorem expand_props_partial_output_witness :
    expandProps (fun _ => []) ("A".data ++ "$\x7bu".data)
      = (false, "A".data ++ (expandProps (fun _ => []) "$\x7bu".data).2) :=
  (expand_props_partial_output (fun _ => []) "A".data "$\x7bu".data
    (by decide) (by decide)).1

/-- C2 (counterexample): with the canonical procfs directory absent and
the cmdline override key set to a value exactly equal to the canonical
path, the resolver does NOT adopt the supplied override value as the
candidate: it returns the secondary default path instead. -/
theorem android_dt_dir_override_equal_canonical_cex :
    (init_android_dt_dir
        ⟨fun _ => false,
         "androidboot.android_dt_dir=/proc/device-tree/firmware/android/".data,
         fun _ => []⟩).dir = kSecondaryAndroidDtDir
    ∧ kSecondaryAndroidDtDir ≠ "/proc/device-tree/firmware/android/".data := by
  decide

/-- C2 (amended): if the canonical procfs directory exists as a directory
it is returned with no further steps (no override scan effect, no ACPI
attempt); otherwise the candidate is the last cmdline override value,
except that an override equal to the canonical path is treated like no
override and, as in the no-override case, the fixed secondary default path
is used; ACPI synthesis is attempted exactly when the candidate is not a
directory; and the candidate is returned unconditionally, independently of
every file content (hence even when synthesis fails). -/
theorem android_dt_dir_priority_chain (env : BootEnv) :
    (env.is_dir kDefaultAndroidDtDir = true →
        init_android_dt_dir env = ⟨kDefaultAndroidDtDir, false, false, []⟩)
    ∧ (env.is_dir kDefaultAndroidDtDir = false →
        (init_android_dt_dir env).dir = specCandidate env.cmdline
        ∧ (init_android_dt_dir env).acpiAttempted
            = !(env.is_dir (specCandidate env.cmdline))
        ∧ ∀ rf : List Char → List Char,
            (init_android_dt_dir ⟨env.is_dir, env.cmdline, rf⟩).dir
              = specCandidate env.cmdline) := by
  constructor
  · intro h
    unfold init_android_dt_dir
    rw [h]
    simp
  · intro h
    have hh := init_android_dt_dir_not_canonical env h
    refine ⟨?_, ?_, ?_⟩
    · rw [hh]
      by_cases hd : env.is_dir (specCandidate env.cmdline) = true <;> simp [hd]
    · rw [hh]
      by_cases hd : env.is_dir (specCandidate env.cmdline) = true
      · simp [hd]
      · have hd' : env.is_dir (specCandidate env.cmdline) = false := by
          revert hd
          cases env.is_dir (specCandidate env.cmdline) <;> simp
        simp [hd']
    · intro rf
      have hh' := init_android_dt_dir_not_canonical ⟨env.is_dir, env.cmdline, rf⟩ h
      rw [hh']
      by_cases hd : env.is_dir (specCandidate env.cmdline) = true <;> simp [hd]

/-- C2 (witness): the amended chain applied to a concrete environment with
the canonical directory absent and a custom override. -/
theorem android_dt_dir_priority_chain_witness :
    (init_android_dt_dir
        ⟨fun _ => false, "androidboot.android_dt_dir=/custom".data, fun _ => []⟩).dir
      = specCandidate "androidboot.android_dt_dir=/custom".data :=
  ((android_dt_dir_priority_chain
      ⟨fun _ => false, "androidboot.android_dt_dir=/custom".data, fun _ => []⟩).2 rfl).1

/-- C5 (counterexample): with a target root containing a `.`, the written
file path is NOT the root with the transformed key remainder appended: the
`.` of the root itself is also replaced by `/`, so key `android.fw.a`
under root `/tmp/d.t` lands in `/tmp/d/t/a`. -/
theorem dt_synthesizer_root_dot_cex :
    ((create_dt_file_by_cmdline "android.fw.a".data "v".data "/tmp/d.t".data).map
        DtFileWrite.filePath = some "/tmp/d/t/a".data)
    ∧ some "/tmp/d/t/a".data
        ≠ some ("/tmp/d.t".data ++ '/' :: replaceDots "a".data) := by
  decide

/-- C5 (amended): keys not prefixed by `android.fw.` produce no file and
no error; a prefixed key produces a recursive-mkdir of the parent plus a
write of the value followed by one newline, at the path obtained by
replacing every `.` of the WHOLE string `root/remainder` (root included)
by `/`; when the root contains no `.` this coincides with the claimed
`root/<transformed remainder>` path, as in the `/tmp/dt` example. -/
theorem dt_synthesizer_materialization (key value rootdir rem : List Char) :
    (key = "android.fw.".data ++ rem →
        create_dt_file_by_cmdline key value rootdir
          = some ⟨dirname (replaceDots (rootdir ++ '/' :: rem)),
                  replaceDots (rootdir ++ '/' :: rem), value ++ ['\n']⟩)
    ∧ ("android.fw.".data.isPrefixOf key = false →
        create_dt_file_by_cmdline key value rootdir = none)
    ∧ ((∀ c ∈ rootdir, c ≠ '.') →
        replaceDots (rootdir ++ '/' :: rem) = rootdir ++ '/' :: replaceDots rem)
    ∧ create_dt_file_by_cmdline "android.fw.display.panel".data "oled".data "/tmp/dt".data
        = some ⟨"/tmp/dt/display".data, "/tmp/dt/display/panel".data, "oled\n".data⟩ := by
  refine ⟨?_, ?_, ?_, by decide⟩
  · rintro rfl
    have hne : ¬ "android.fw.".data ++ rem = [] := fun hcon =>
      (by decide : "android.fw.".data ≠ []) (List.append_eq_nil.mp hcon).1
    have hdrop : ("android.fw.".data ++ rem).drop 11 = rem := by
      rw [show 11 = ("android.fw.".data).length from by decide]
      exact List.drop_left "android.fw.".data rem
    unfold create_dt_file_by_cmdline
    rw [if_neg hne, if_pos (isPrefixOf_append_self "android.fw.".data rem), hdrop]
  · intro h
    by_cases hk : key = []
    · simp [create_dt_file_by_cmdline, hk]
    · simp [create_dt_file_by_cmdline, hk, h]
  · intro h
    rw [replaceDots_append, replaceDots_of_no_dot h]
    simp [replaceDots]

/-- C5 (witness): the amended materialization applied to key
`android.fw.a` with value `v` under root `/x`. -/
theorem dt_synthesizer_materialization_witness :
    create_dt_file_by_cmdline "android.fw.a".data "v".data "/x".data
      = some ⟨dirname (replaceDots ("/x".data ++ '/' :: "a".data)),
              replaceDots ("/x".data ++ '/' :: "a".data), "v".data ++ ['\n']⟩ :=
  (dt_synthesizer_materialization "android.fw.a".data "v".data "/x".data "a".data).1
    (by decide)

/-- C6: when the ACPI node's `path` attribute content lacks the `CFG0`
signature, the importer returns failure with zero callback invocations
(hence zero files), and the result does not depend on the `description`
attribute content at all. -/
theorem acpi_importer_missing_signature (pathContent desc1 desc2 : List Char)
    (h : containsSub "CFG0".data pathContent = false) :
    import_acpi_cmdline pathContent desc1 = (false, [])
    ∧ import_acpi_cmdline pathContent desc1 = import_acpi_cmdline pathContent desc2 := by
  unfold import_acpi_cmdline
  rw [h]
  simp

/-- C6 (witness): the missing-signature theorem applied to a `path`
content without `CFG0` and two different description contents. -/
theorem acpi_importer_missing_signature_witness :
    import_acpi_cmdline "pci".data "a=b".data = (false, []) :=
  (acpi_importer_missing_signature "pci".data "a=b".data "c=d".data (by decide)).1

/-- C7: when the `path` attribute contains `CFG0` but the
newline-to-space-rewritten `description` tokenizes to zero accepted
pairs, the importer still reports success with zero callback
invocations. -/
theorem acpi_importer_empty_description (pathContent descContent : List Char)
    (h1 : containsSub "CFG0".data pathContent = true)
    (h2 : tokenizePairs (descContent.map (fun c => if c = '\n' then ' ' else c)) = []) :
    import_acpi_cmdline pathContent descContent = (true, []) := by
  unfold import_acpi_cmdline
  rw [h1]
  simp [h2]

/-- C7 (witness): the empty-description theorem applied to `path` content
`CFG0` and an empty description. -/
theorem acpi_importer_empty_description_witness :
    import_acpi_cmdline "CFG0".data [] = (true, []) :=
  acpi_importer_empty_description "CFG0".data [] (by decide) (by decide)

/-- C10: the override fold keeps the LAST occurrence of the override key
(generally); and, concretely, an override whose value equals the canonical
procfs path is indistinguishable from an absent override: with the
canonical directory missing, both environments produce identical results
and the adopted path is the secondary default, not the supplied value. -/
theorem android_dt_dir_override_indistinguishable :
    (∀ cmdline : List Char,
        dtDirOverride cmdline
          = match lastDtDirOverride cmdline with
            | some v => v
            | none => kDefaultAndroidDtDir)
    ∧ init_android_dt_dir
        ⟨fun _ => false,
         "androidboot.android_dt_dir=/proc/device-tree/firmware/android/".data,
         fun _ => []⟩
      = init_android_dt_dir ⟨fun _ => false, [], fun _ => []⟩
    ∧ (init_android_dt_dir
        ⟨fun _ => false,
         "androidboot.android_dt_dir=/a androidboot.android_dt_dir=/b".data,
         fun _ => []⟩).dir = "/b".data := by
  refine ⟨?_, by decide, by decide⟩
  intro cmdline
  unfold dtDirOverride lastDtDirOverride
  rw [foldl_override_eq_find]
  cases hf : (tokenizePairs cmdline).reverse.find?
      (fun p => p.1 == "androidboot.android_dt_dir".data) <;> simp

end AndroidInit
